import Mathlib

/-!
Verification development for the changeling/theScroll component
(`changeling.py`): an append-only, forkable version space for text
documents.  Documents are `List Char`; Python's dynamically-typed
document argument (which may be `None` during replay) is `Option (List
Char)`.  Python exceptions are modelled by the error monad `Except
PyErr`; a function that can raise returns `Except PyErr α`, and a
caught exception is an `Except.error` value inspected by the caller.
-/

namespace Changeling

/-- Kinds of `KeyError` raised by the resolvers (the Python code raises
`KeyError` with a message in each of these places; `ChangeEvent.apply`
catches every `KeyError` regardless of kind). `missingKey` is the
ordinary dict-lookup `KeyError`. -/
inductive KErr where
  | badRange
  | noMatch
  | badAttr
  | noAttrMatch
  | xptrUnimpl
  | unknownScheme
  | missingKey
deriving DecidableEq, Repr

/-- Python exception model. `systemExit` is what `fatal` (log +
`sys.exit()`) produces; `nonterm` marks fuel exhaustion of a loop that
Python runs unboundedly. -/
inductive PyErr where
  | keyError (k : KErr)
  | valueError
  | typeError
  | indexError
  | assertionError
  | attributeError
  | systemExit
  | nonterm
deriving DecidableEq, Repr

/-- Python `s.split(sep, maxsplit=1)` viewed through tuple unpacking
`a, b = ...`: `none` when the separator is absent (the unpacking then
raises `ValueError`). -/
def splitOnce (sep : Char) : List Char → Option (List Char × List Char)
  | [] => none
  | c :: rest =>
      if c = sep then some ([], rest)
      else (splitOnce sep rest).map (fun p => (c :: p.1, p.2))

/-- Python `s.split(sep, maxsplit=n)` for a single-character separator. -/
def pySplitN (sep : Char) : Nat → List Char → List (List Char)
  | 0, s => [s]
  | n + 1, s =>
      match splitOnce sep s with
      | none => [s]
      | some (a, b) => a :: pySplitN sep n b

/-- ASCII whitespace as recognized by Python `str.strip` (the Unicode
extras are irrelevant to this data). -/
def pyIsSpace (c : Char) : Bool :=
  c = ' ' || c = '\t' || c = '\n' || c = '\r' || c = '\x0b' || c = '\x0c'

/-- Python `str.strip()`. -/
def strip (s : List Char) : List Char :=
  ((s.dropWhile pyIsSpace).reverse.dropWhile pyIsSpace).reverse

/-- Numeric value of a digit run. -/
def digitsVal (ds : List Char) : Nat :=
  ds.foldl (fun a c => 10 * a + (c.toNat - '0'.toNat)) 0

/-- Python `int(s)` on a decimal string: optional surrounding
whitespace, optional sign, at least one digit; otherwise `ValueError`.
(Underscore digit grouping and non-ASCII digits are not modelled.) -/
def pyInt (s : List Char) : Except PyErr Int :=
  match strip s with
  | '-' :: ds =>
      if ds ≠ [] ∧ ds.all Char.isDigit then .ok (-(digitsVal ds : Int))
      else .error .valueError
  | '+' :: ds =>
      if ds ≠ [] ∧ ds.all Char.isDigit then .ok (digitsVal ds : Int)
      else .error .valueError
  | ds =>
      if ds ≠ [] ∧ ds.all Char.isDigit then .ok (digitsVal ds : Int)
      else .error .valueError

/-- The `quotePairs` table of `changeling.py` (active entries only, in
source order): left and right quote character of each recognized pair. -/
def quotePairs : List (Char × Char) :=
  [ ('\u0027', '\u0027'),
    ('\u0022', '\u0022'),
    ('\u2018', '\u2019'),
    ('\u201C', '\u201D'),
    ('\u2039', '\u203A'),
    ('\u00AB', '\u00BB'),
    ('\u201A', '\u201B'),
    ('\u201E', '\u201F'),
    ('\u2032', '\u2035'),
    ('\u301E', '\u301E'),
    ('\u2034', '\u2037'),
    ('\u2E02', '\u2E03'),
    ('\u2E04', '\u2E05'),
    ('\u2E09', '\u2E0A'),
    ('\u2E0C', '\u2E0D'),
    ('\u2E1C', '\u2E1D'),
    ('\u2057', '\u301D'),
    ('\uFF02', '\uFF02') ]

/-- `unquoteString`: strip one matching quote pair off the ends, if the
first pair in `quotePairs` whose left quote starts and right quote ends
the string exists; otherwise return the string unchanged (empty input
returns empty). -/
def unquoteString (s : List Char) : List Char :=
  match quotePairs.find? (fun p => s.head? = some p.1 ∧ s.getLast? = some p.2) with
  | some _ => (s.drop 1).dropLast
  | none => s

/-- External collaborators used by the resolvers: the `re` module
(pattern search and the `attr`-scheme group match), the
`ast.literal_eval (shlex.quote s)` combination of `unescapeString`, the
`makeEpochTime` timestamp parser (floats are out of scope) and the
uuid-based fresh change id.  `search pat d` abstracts
`re.search(re.compile(pat), d)` returning `(m.start(), m.end())`;
`search_ok` records the guarantee of the `re` engine that a match span
satisfies `start ≤ end ≤ len(doc)`.  `attrParse r` abstracts
`re.match(attrRegex, r)` returning the two groups (name, still-quoted
value).  `literalEval` returns `none` when `ast.literal_eval` raises
`ValueError`/`SyntaxError`. -/
structure ReOracle where
  search : List Char → List Char → Option (Nat × Nat)
  search_ok : ∀ pat d s e, search pat d = some (s, e) → s ≤ e ∧ e ≤ d.length
  attrParse : List Char → Option (List Char × List Char)
  literalEval : List Char → Option (List Char)
  makeEpochTime : List Char → Int
  freshId : List Char

/-- A concrete oracle instance for evaluating the model on closed
inputs that use no regex scheme: the pattern engine finds nothing,
`attr` group-matching fails, `literal_eval` is the identity. -/
def trivOracle : ReOracle where
  search := fun _ _ => none
  search_ok := fun _ _ _ _ h => by simp at h
  attrParse := fun _ => none
  literalEval := fun s => some s
  makeEpochTime := fun _ => 0
  freshId := []

/-- Python `len(doc)`: `TypeError` when `doc` is `None`. -/
def pyLen : Option (List Char) → Except PyErr Nat
  | some d => .ok d.length
  | none => .error .typeError

/-- Python `re.search(pat, doc)`: `TypeError` when `doc` is `None`. -/
def pySearch (σ : ReOracle) (pat : List Char) :
    Option (List Char) → Except PyErr (Option (Nat × Nat))
  | some d => .ok (σ.search pat d)
  | none => .error .typeError

/-- Python `doc[fr:to]`: `TypeError` when `doc` is `None`.  For the
non-negative indices produced by the Target Resolver this equals
`(take to).drop fr` (negative-index wraparound is never reached and not
modelled). -/
def pySlice : Option (List Char) → Int → Int → Except PyErr (List Char)
  | none, _, _ => .error .typeError
  | some d, frChar, toChar => .ok ((d.take toChar.toNat).drop frChar.toNat)

/-- The regex text the `attr` scheme builds and searches for,
interpolating the attribute name and (unquoted) value. -/
def attrPattern (aname aval : List Char) : List Char :=
  "<\\w*[^>]+\\s".data ++ aname ++ "\\s*=\\s*(['\"]".data ++ aval ++ "['\"])".data

-- Every document starts from this unstored base id; the source asserts
-- ChangeId("0", 0, 0).tostring() == "0_0_0".
def NULL_CHANGE_ID : List Char := "0_0_0".data

/-- `ChangeEvent.getTargetBounds(doc, tgt)`, translated branch by
branch.  The document is `Option` because replay can pass Python
`None`; the short-circuit order of `frChar < 0 or frChar > toChar or
toChar > len(doc)` is preserved (so `len(None)` is only reached when
the first two tests fail). -/
def getTargetBounds (σ : ReOracle) (doc : Option (List Char)) (tgt : List Char) :
    Except PyErr (Int × Int) :=
  match splitOnce ':' tgt with
  | none => .error .valueError
  | some (scheme, rest) =>
    if scheme = "END".data then
      match pyLen doc with
      | .error e => .error e
      | .ok n => .ok ((n : Int), (n : Int))
    else if scheme = "chars".data then
      match splitOnce ':' rest with
      | none => .error .valueError
      | some (s1, s2) =>
        match pyInt s1 with
        | .error e => .error e
        | .ok frChar =>
          match pyInt s2 with
          | .error e => .error e
          | .ok toChar =>
            if frChar < 0 then .error (.keyError .badRange)
            else if frChar > toChar then .error (.keyError .badRange)
            else
              match pyLen doc with
              | .error e => .error e
              | .ok n =>
                if toChar > (n : Int) then .error (.keyError .badRange)
                else .ok (frChar, toChar)
    else if scheme = "match".data then
      match pySearch σ (unquoteString rest) doc with
      | .error e => .error e
      | .ok none => .error (.keyError .noMatch)
      | .ok (some (s, e)) => .ok ((s : Int), (e : Int))
    else if scheme = "attr".data then
      match σ.attrParse rest with
      | none => .error (.keyError .badAttr)
      | some (aname, aval) =>
        match pySearch σ (attrPattern aname (unquoteString aval)) doc with
        | .error e => .error e
        | .ok none => .error (.keyError .noAttrMatch)
        | .ok (some (s, e)) => .ok ((s : Int), (e : Int))
    else if scheme = "xptr".data then .error (.keyError .xptrUnimpl)
    else .error (.keyError .unknownScheme)

/-- `ChangeEvent.getSource(doc, src)`: `text` yields the unquoted
result of `unescapeString`, `copy` re-runs the Target Resolver on the
same document and slices. -/
def getSource (σ : ReOracle) (doc : Option (List Char)) (src : List Char) :
    Except PyErr (List Char) :=
  match splitOnce ':' src with
  | none => .error .valueError
  | some (scheme, rest) =>
    if scheme = "text".data then
      match σ.literalEval rest with
      | none => .error .valueError
      | some t => .ok (unquoteString t)
    else if scheme = "copy".data then
      match getTargetBounds σ doc rest with
      | .error e => .error e
      | .ok (frChar, toChar) => pySlice doc frChar toChar
    else .error (.keyError .unknownScheme)

/-- One change record.  `epochTime` is the already-parsed timestamp
(the float subtleties of `makeEpochTime` are external, see
`ReOracle.makeEpochTime`). -/
structure ChangeEvent where
  baseId : List Char
  changeId : List Char
  user : List Char
  epochTime : Int
  target : List Char
  source : List Char
  loaded : Bool
deriving DecidableEq, Repr

/-- `ChangeEvent.__init__`: falsy `baseId` defaults to the null change
id, falsy `changeId` to a freshly generated id. -/
def mkChangeEvent (baseId changeId user : List Char) (epochTime : Int)
    (target source : List Char) (loaded : Bool) (freshId : List Char) : ChangeEvent :=
  { baseId := if baseId = [] then NULL_CHANGE_ID else baseId
    changeId := if changeId = [] then freshId else changeId
    user := user
    epochTime := epochTime
    target := target
    source := source
    loaded := loaded }

/-- `ChangeEvent.apply(doc)`: resolve target then source inside one
`try`; a `KeyError` from either is caught, reported, and turned into
the Python-`None` return (`.ok none`); any other exception propagates.
On success return `doc[0:frChar] + srcString + doc[toChar:]`. -/
def ChangeEvent.apply (σ : ReOracle) (ce : ChangeEvent) (doc : Option (List Char)) :
    Except PyErr (Option (List Char)) :=
  match getTargetBounds σ doc ce.target with
  | .error (.keyError _) => .ok none
  | .error e => .error e
  | .ok (frChar, toChar) =>
    match getSource σ doc ce.source with
    | .error (.keyError _) => .ok none
    | .error e => .error e
    | .ok srcString =>
      match doc with
      | none => .error .typeError
      | some d => .ok (some (d.take frChar.toNat ++ srcString ++ d.drop toChar.toNat))

/-- Keys of a Python-dict-as-association-list (insertion order kept). -/
def dkeys {α : Type} (d : List (List Char × α)) : List (List Char) :=
  d.map (fun kv => kv.1)

/-- Python dict lookup `d[k]` / `d.get(k)`: first (= only, keys are
unique in a real dict) entry with key `k`. -/
def dget {α : Type} : List (List Char × α) → List Char → Option α
  | [], _ => none
  | kv :: rest, k => if kv.1 = k then some kv.2 else dget rest k

/-- Replace the value stored at key `k` (position preserved, as a
Python dict re-assignment does). -/
def dreplace {α : Type} : List (List Char × α) → List Char → α → List (List Char × α)
  | [], _, _ => []
  | kv :: rest, k, v =>
      if kv.1 = k then (k, v) :: dreplace rest k v else kv :: dreplace rest k v

/-- Python dict assignment `d[k] = v`: replace in place when the key is
present, else append at the end. -/
def dinsert {α : Type} (d : List (List Char × α)) (k : List Char) (v : α) :
    List (List Char × α) :=
  if (dget d k).isSome then dreplace d k v else d ++ [(k, v)]

/-- Python `del d[k]`: drop the (unique) entry with key `k`. -/
def ddel {α : Type} : List (List Char × α) → List Char → List (List Char × α)
  | [], _ => []
  | kv :: rest, k => if kv.1 = k then rest else kv :: ddel rest k

/-- Delete a key from the tip key set (`del self.tips[k]`, guarded by a
membership test in the source; deleting an absent key is a no-op
here, matching the guarded Python code). -/
def ldel : List (List Char) → List Char → List (List Char)
  | [], _ => []
  | x :: rest, k => if x = k then rest else x :: ldel rest k

/-- Add a key to the tip key set (`self.tips[k] = True`): appended when
absent, position kept when present. -/
def ladd (t : List (List Char)) (k : List Char) : List (List Char) :=
  if k ∈ t then t else t ++ [k]

/-- `ChangeLing`: the identifier-to-record dict, the incrementally
maintained tip set (modelled by its key set: the stored dict values,
`True` or a parent id, are never consulted as such), the metadata
table, and the never-incremented `nChanges` counter. -/
structure ChangeLing where
  store : List (List Char × ChangeEvent)
  tips : List (List Char)
  meta : List (List Char × List (List Char))
  nChanges : Nat
deriving DecidableEq, Repr

/-- `ChangeLing()`: empty store, tips, metadata. -/
def emptyLing : ChangeLing := ⟨[], [], [], 0⟩

/-- `ChangeLing.addChangeEvent`: `fatal` (process-terminating
`sys.exit`, before any mutation) unless the base id is stored or is the
null change id; otherwise store the record under its change id, delete
its base id from the tips and add its change id to the tips. -/
def ChangeLing.addChangeEvent (L : ChangeLing) (ce : ChangeEvent) :
    Except PyErr ChangeLing :=
  if ¬ ((dget L.store ce.baseId).isSome ∨ ce.baseId = NULL_CHANGE_ID) then
    .error .systemExit
  else
    .ok { L with
          store := dinsert L.store ce.changeId ce
          tips := ladd (ldel L.tips ce.baseId) ce.changeId }

/-- `ChangeLing.findAllTipVersions`: rebuild `changeTips` as the map
change-id ↦ base-id over all stored records, then delete every key that
occurs as some record's base id (guarded, as in the source). -/
def ChangeLing.findAllTipVersions (L : ChangeLing) : List (List Char × List Char) :=
  ((L.store.map (fun kv => (kv.1, kv.2.baseId))).map (fun kv => kv.2)).foldl
    (fun acc b => if (dget acc b).isSome then ddel acc b else acc)
    (L.store.map (fun kv => (kv.1, kv.2.baseId)))

/-- Fold `addChangeEvent` over a list of records (the loader's
one-call-per-record stream), propagating the fatal exit. -/
def insertAll (L : ChangeLing) : List ChangeEvent → Except PyErr ChangeLing
  | [] => .ok L
  | ce :: rest =>
      match L.addChangeEvent ce with
      | .error e => .error e
      | .ok L' => insertAll L' rest

/-- `ChangeLing.getPathToChangeId` loop body, with explicit fuel for
the Python `while` loop (whose guard `cur != NULL_CHANGE_ID` compares a
record to a string and is therefore always true; only the `break` on a
null base id or the `fatal` on a dangling base id leaves the loop).
Each visited record is prepended (`thePath.insert(0, cur)`). -/
def getPathAux (L : ChangeLing) : ChangeEvent → List ChangeEvent → Nat →
    Except PyErr (List ChangeEvent)
  | _, _, 0 => .error .nonterm
  | cur, acc, fuel + 1 =>
      if cur.baseId = NULL_CHANGE_ID then .ok (cur :: acc)
      else
        match dget L.store cur.baseId with
        | none => .error .systemExit
        | some p => getPathAux L p (cur :: acc) fuel

/-- `ChangeLing.getPathToChangeId(cid)`: the initial `self[cid]` lookup
raises a (dict) `KeyError` when absent, then the backward walk. -/
def ChangeLing.getPathToChangeId (L : ChangeLing) (cid : List Char) (fuel : Nat) :
    Except PyErr (List ChangeEvent) :=
  match dget L.store cid with
  | none => .error (.keyError .missingKey)
  | some ce => getPathAux L ce [] fuel

/-- `ChangeLing.path2Document`: replay a path from the given document,
one `apply` per record.  A `None` result is only logged (`error("Cannot
reconstruct doc.")`) — the loop continues with `doc = None`, exactly as
in the source. -/
def path2Document (σ : ReOracle) : List ChangeEvent → Option (List Char) →
    Except PyErr (Option (List Char))
  | [], doc => .ok doc
  | chg :: rest, doc =>
      match chg.apply σ doc with
      | .error e => .error e
      | .ok doc' => path2Document σ rest doc'

/-- `ChangeLing.getDocAsOfChangeId(cid)`: the path to `cid`, replayed
from the empty string. -/
def ChangeLing.getDocAsOfChangeId (σ : ReOracle) (L : ChangeLing) (cid : List Char)
    (fuel : Nat) : Except PyErr (Option (List Char)) :=
  match L.getPathToChangeId cid fuel with
  | .error e => .error e
  | .ok p => path2Document σ p (some "".data)

/-- Python `\w` (ASCII portion; the data at issue is ASCII). -/
def isWordChar (c : Char) : Bool := c.isAlphanum || c = '_'

/-- The character class `[-.:\w]` of the `#META` regex. -/
def isNameChar (c : Char) : Bool := isWordChar c || c = '-' || c = '.' || c = ':'

/-- Deterministic transcription of
`re.match(r'#META\s+(\w[-.:\w]+)\s*=\s*"([^"]*)', rec)`: literal
`#META`, one-or-more whitespace, a word character followed by at least
one more name character (maximal munch — the name class excludes
whitespace and `=`, so no backtracking is possible), optional
whitespace, `=`, optional whitespace, `"`, then the run of non-quote
characters (the regex requires no closing quote).  Returns the two
groups (name, raw value). -/
def parseMetaRec (rec : List Char) : Option (List Char × List Char) :=
  match rec with
  | '#' :: 'M' :: 'E' :: 'T' :: 'A' :: rest =>
    if rest.takeWhile pyIsSpace = [] then none
    else
      match rest.dropWhile pyIsSpace with
      | [] => none
      | c0 :: r1 =>
        if isWordChar c0 then
          let nm := r1.takeWhile isNameChar
          if nm = [] then none
          else
            match (r1.dropWhile isNameChar).dropWhile pyIsSpace with
            | '=' :: r3 =>
              match r3.dropWhile pyIsSpace with
              | '"' :: r4 => some (c0 :: nm, r4.takeWhile (fun c => ¬ c = '"'))
              | _ => none
            | _ => none
        else none
  | _ => none

/-- `ChangeLing.storeMeta`: a failed regex match is the
`assert mat, ...` failure; a repeated field hits the source's
`self.meta[field].appen(val)` typo and raises `AttributeError`. -/
def ChangeLing.storeMeta (L : ChangeLing) (rec : List Char) : Except PyErr ChangeLing :=
  match parseMetaRec rec with
  | none => .error .assertionError
  | some (field, v) =>
    let val := strip v
    match dget L.meta field with
    | none => .ok { L with meta := dinsert L.meta field [val] }
    | some _ => .error .attributeError

/-- `ChangeLing.addFromPlainRec`: split into at most 6 comma fields,
`ValueError` unless exactly `NFIELDS = 6` result, strip each, parse the
timestamp, build the record with `loaded=True` and insert it. -/
def ChangeLing.addFromPlainRec (σ : ReOracle) (L : ChangeLing) (rec : List Char) :
    Except PyErr ChangeLing :=
  match pySplitN ',' 5 rec with
  | [f0, f1, f2, f3, f4, f5] =>
      L.addChangeEvent (mkChangeEvent (strip f0) (strip f1) (strip f2)
        (σ.makeEpochTime (strip f3)) (strip f4) (strip f5) true σ.freshId)
  | _ => .error .valueError

/-- The record loop of `ChangeLing.loadFromPlain`: non-`#` lines are
data records; `#META...` lines assert `self.nChanges == 0` (a counter
that nothing ever increments) and go to `storeMeta`; other `#` lines
are comments.  `rec[0]` on an empty line would raise `IndexError`. -/
def loadLines (σ : ReOracle) : ChangeLing → List (List Char) → Except PyErr ChangeLing
  | L, [] => .ok L
  | L, rec :: rest =>
      match rec with
      | [] => .error .indexError
      | c :: _ =>
        if ¬ c = '#' then
          match L.addFromPlainRec σ rec with
          | .error e => .error e
          | .ok L' => loadLines σ L' rest
        else if "#META".data.isPrefixOf rec then
          if L.nChanges = 0 then
            match L.storeMeta rec with
            | .error e => .error e
            | .ok L' => loadLines σ L' rest
          else .error .assertionError
        else loadLines σ L rest

/-- `ChangeLing.loadFromPlain`: assert the store is empty, reset
`nChanges`, process all lines, then overwrite `tips` with the
recomputed `findAllTipVersions()` (whose key set is what the tip model
keeps). -/
def ChangeLing.loadFromPlain (σ : ReOracle) (L : ChangeLing)
    (recLines : List (List Char)) : Except PyErr ChangeLing :=
  if L.store = [] then
    match loadLines σ { L with nChanges := 0 } recLines with
    | .error e => .error e
    | .ok L' => .ok { L' with tips := dkeys L'.findAllTipVersions }
  else .error .assertionError

/-! ## Resolver-level lemmas and claims -/

/-- Any successful target resolution over a real (non-`None`) document
yields `0 ≤ frChar ≤ toChar ≤ length doc`: `END` returns the document
length twice, `chars` checks exactly these bounds, and the regex
schemes inherit the span guarantee of the pattern engine. -/
theorem getTargetBounds_range (σ : ReOracle) (d tgt : List Char) (frChar toChar : Int)
    (h : getTargetBounds σ (some d) tgt = .ok (frChar, toChar)) :
    0 ≤ frChar ∧ frChar ≤ toChar ∧ toChar ≤ (d.length : Int) := by
  unfold getTargetBounds at h
  simp only [pyLen, pySearch] at h
  repeat' split at h
  all_goals simp_all
  all_goals try omega
  all_goals rename_i heq
  all_goals have hse := σ.search_ok _ _ _ _ heq
  all_goals omega

/-- C1: if the target of a Change Record resolves over document `d` to
`(frChar, toChar)` and its source resolves over `d` to `repl`, then
`apply` returns exactly `d[0:frChar] + repl + d[toChar:]` — prefix,
replacement, suffix, nothing else — and the resolved range satisfies
`0 ≤ frChar ≤ toChar ≤ length d` (so the slices mean what they say). -/
theorem apply_splices (σ : ReOracle) (d : List Char) (ce : ChangeEvent)
    (frChar toChar : Int) (repl : List Char)
    (ht : getTargetBounds σ (some d) ce.target = .ok (frChar, toChar))
    (hs : getSource σ (some d) ce.source = .ok repl) :
    ce.apply σ (some d)
        = .ok (some (d.take frChar.toNat ++ repl ++ d.drop toChar.toNat))
      ∧ 0 ≤ frChar ∧ frChar ≤ toChar ∧ toChar ≤ (d.length : Int) := by
  refine ⟨?_, getTargetBounds_range σ d ce.target frChar toChar ht⟩
  unfold ChangeEvent.apply
  rw [ht, hs]

/-- Witness for `apply_splices`: replacing characters 1–2 of `"abc"`
with `"XY"` yields `"aXYc"`. -/
theorem apply_splices_witness :
    ChangeEvent.apply trivOracle
        ⟨"0_0_0".data, "1".data, "u".data, 0, "chars:1:2".data, "text:\"XY\"".data, true⟩
        (some "abc".data)
        = .ok (some ("abc".data.take (Int.toNat 1) ++ "XY".data ++ "abc".data.drop (Int.toNat 2)))
      ∧ 0 ≤ (1 : Int) ∧ (1 : Int) ≤ 2 ∧ (2 : Int) ≤ ("abc".data.length : Int) :=
  apply_splices trivOracle "abc".data
    ⟨"0_0_0".data, "1".data, "u".data, 0, "chars:1:2".data, "text:\"XY\"".data, true⟩
    1 2 "XY".data rfl rfl

/-- C2: whenever resolving the target — or, the target having
resolved, the source — fails with a `KeyError` of any kind (the claim's
enumerated cases are the kinds `noMatch`, `badRange`, `unknownScheme`
and `xptrUnimpl`), `apply` raises nothing to its caller: it returns the
Python-`None` sentinel (`.ok none`). -/
theorem apply_failure_returns_none (σ : ReOracle) (d : List Char) (ce : ChangeEvent)
    (k : KErr)
    (h : getTargetBounds σ (some d) ce.target = .error (.keyError k)
       ∨ ∃ b, getTargetBounds σ (some d) ce.target = .ok b
            ∧ getSource σ (some d) ce.source = .error (.keyError k)) :
    ce.apply σ (some d) = .ok none := by
  unfold ChangeEvent.apply
  rcases h with h | ⟨⟨frChar, toChar⟩, ht, hs⟩
  · rw [h]
  · rw [ht, hs]

/-- Witness for `apply_failure_returns_none`: the malformed range
`chars:2:1` over `"abc"` makes `apply` return the sentinel. -/
theorem apply_failure_returns_none_witness :
    ChangeEvent.apply trivOracle
        ⟨"0_0_0".data, "1".data, "u".data, 0, "chars:2:1".data, "text:\"XY\"".data, true⟩
        (some "abc".data) = .ok none :=
  apply_failure_returns_none trivOracle "abc".data
    ⟨"0_0_0".data, "1".data, "u".data, 0, "chars:2:1".data, "text:\"XY\"".data, true⟩
    .badRange (Or.inl rfl)

/-- Splitting at the first separator: a separator-free prefix is
returned whole. -/
theorem splitOnce_no_sep_append (s1 s2 : List Char) (h : ':' ∉ s1) :
    splitOnce ':' (s1 ++ ':' :: s2) = some (s1, s2) := by
  induction s1 with
  | nil => simp [splitOnce]
  | cons c rest ih =>
      have hc : ¬ c = ':' := fun he => h (he ▸ List.mem_cons_self c rest)
      have hr : ':' ∉ rest := fun hm => h (List.mem_cons_of_mem _ hm)
      simp [splitOnce, hc, ih hr]

/-- C6: for a `chars:from:to` target with well-formed integer offsets,
resolution fails with the range `KeyError` exactly when `from > to`,
`from < 0` or `to > length d`, and otherwise returns `(from, to)`
unchanged — in particular no out-of-range pair is ever returned for the
`chars` scheme. -/
theorem chars_range_exact (σ : ReOracle) (d s1 s2 : List Char) (frChar toChar : Int)
    (hns : ':' ∉ s1) (h1 : pyInt s1 = .ok frChar) (h2 : pyInt s2 = .ok toChar) :
    getTargetBounds σ (some d) ("chars:".data ++ s1 ++ ':' :: s2) =
      if frChar > toChar ∨ frChar < 0 ∨ toChar > (d.length : Int)
      then .error (.keyError .badRange)
      else .ok (frChar, toChar) := by
  have hsplit : splitOnce ':' ("chars:".data ++ s1 ++ ':' :: s2)
      = some ("chars".data, s1 ++ ':' :: s2) := by
    have : "chars:".data ++ s1 ++ ':' :: s2 = "chars:".data ++ (s1 ++ ':' :: s2) := by
      simp [List.append_assoc]
    rw [this]
    rfl
  unfold getTargetBounds
  rw [hsplit]
  simp only []
  rw [if_neg (by decide), if_pos (by trivial), splitOnce_no_sep_append s1 s2 hns]
  simp only [h1, h2, pyLen]
  split_ifs <;> first | rfl | (exfalso; omega)

/-- Witness for `chars_range_exact`: `chars:1:2` over `"abc"` resolves
to `(1, 2)`. -/
theorem chars_range_exact_witness :
    (':' ∉ "1".data) ∧
    getTargetBounds trivOracle (some "abc".data) ("chars:".data ++ "1".data ++ ':' :: "2".data) =
      if (1 : Int) > 2 ∨ (1 : Int) < 0 ∨ (2 : Int) > ("abc".data.length : Int)
      then .error (.keyError .badRange)
      else .ok (1, 2) :=
  ⟨by decide, chars_range_exact trivOracle "abc".data "1".data "2".data 1 2 (by decide) rfl rfl⟩

/-- Reassembling a document from its prefix, the copied middle slice
and its suffix gives the document back, provided the cut points are in
order and in range. -/
theorem take_slice_drop (d : List Char) (a b : Nat) (hab : a ≤ b) (_hb : b ≤ d.length) :
    d.take a ++ (d.take b).drop a ++ d.drop b = d := by
  rw [List.drop_take, List.append_assoc]
  have hba : b = a + (b - a) := by omega
  calc d.take a ++ ((d.drop a).take (b - a) ++ d.drop b)
      = d.take a ++ ((d.drop a).take (b - a) ++ d.drop (a + (b - a))) := by rw [← hba]
    _ = d.take a ++ d.drop a := by rw [List.drop_take_append_drop]
    _ = d := List.take_append_drop a d

/-- C9: a Change Record whose source is `copy:` of its own target
specification is a no-op — whenever the target resolves at all, `apply`
returns the document unchanged. -/
theorem copy_onto_self_noop (σ : ReOracle) (d : List Char)
    (baseId changeId user : List Char) (t : Int) (tgt : List Char) (ld : Bool)
    (frChar toChar : Int)
    (ht : getTargetBounds σ (some d) tgt = .ok (frChar, toChar)) :
    ChangeEvent.apply σ
        ⟨baseId, changeId, user, t, tgt, "copy:".data ++ tgt, ld⟩
        (some d) = .ok (some d) := by
  obtain ⟨h0, hab, hb⟩ := getTargetBounds_range σ d tgt frChar toChar ht
  have hsp : splitOnce ':' ("copy:".data ++ tgt) = some ("copy".data, tgt) := rfl
  have hsrc : getSource σ (some d) ("copy:".data ++ tgt)
      = .ok ((d.take toChar.toNat).drop frChar.toNat) := by
    unfold getSource
    rw [hsp]
    simp only [ht, pySlice]
    rw [if_neg (by decide), if_pos (by trivial)]
  unfold ChangeEvent.apply
  simp only [ht, hsrc]
  rw [take_slice_drop d frChar.toNat toChar.toNat (by omega) (by omega)]

/-- Witness for `copy_onto_self_noop`: target `chars:1:3` of `"abcd"`,
source `copy:chars:1:3`. -/
theorem copy_onto_self_noop_witness :
    ChangeEvent.apply trivOracle
        ⟨"0_0_0".data, "2".data, "u".data, 0, "chars:1:3".data,
          "copy:".data ++ "chars:1:3".data, true⟩
        (some "abcd".data) = .ok (some "abcd".data) :=
  copy_onto_self_noop trivOracle "abcd".data "0_0_0".data "2".data "u".data 0
    "chars:1:3".data true 1 3 rfl

/-! ## Store-level lemmas and claims -/

/-- Replacing at a present key stores the new value at that key. -/
theorem dget_dreplace_self {α : Type} (d : List (List Char × α)) (k : List Char) (v : α)
    (h : (dget d k).isSome) : dget (dreplace d k v) k = some v := by
  induction d with
  | nil => simp [dget] at h
  | cons kv rest ih =>
      by_cases hk : kv.1 = k
      · simp [dreplace, dget, hk]
      · simp only [dreplace, dget, hk, if_neg, if_false] at h ⊢
        exact ih h

/-- Key replacement never changes the key sequence of the dict. -/
theorem dkeys_dreplace {α : Type} (d : List (List Char × α)) (k : List Char) (v : α) :
    dkeys (dreplace d k v) = dkeys d := by
  induction d with
  | nil => rfl
  | cons kv rest ih =>
      by_cases hk : kv.1 = k
      · simp [dreplace, dkeys, hk] at ih ⊢; exact ih
      · simp [dreplace, dkeys, hk] at ih ⊢; exact ih

/-- The key just added to the tip set is a member of it. -/
theorem mem_ladd_self (t : List (List Char)) (k : List Char) : k ∈ ladd t k := by
  unfold ladd
  split
  · assumption
  · exact List.mem_append_right t (List.mem_cons_self k [])

/-- C5: a record whose `baseId` is neither stored nor the null change
id makes `addChangeEvent` terminate the process (`fatal`/`sys.exit`)
before any mutation: the call produces no successor store state at
all. -/
theorem addChangeEvent_orphan_fatal (L : ChangeLing) (ce : ChangeEvent)
    (h1 : dget L.store ce.baseId = none) (h2 : ce.baseId ≠ NULL_CHANGE_ID) :
    L.addChangeEvent ce = .error .systemExit := by
  unfold ChangeLing.addChangeEvent
  rw [h1]
  simp [h2]

/-- Witness for `addChangeEvent_orphan_fatal`: inserting into the empty
store a record based on the unknown id `"9"`. -/
theorem addChangeEvent_orphan_fatal_witness :
    ChangeLing.addChangeEvent emptyLing
      ⟨"9".data, "1".data, "u".data, 0, "END:".data, "text:\"x\"".data, false⟩
      = .error .systemExit :=
  addChangeEvent_orphan_fatal emptyLing
    ⟨"9".data, "1".data, "u".data, 0, "END:".data, "text:\"x\"".data, false⟩
    rfl (by decide)

/-- C10: `addChangeEvent` performs no uniqueness check on the new
record's id: with a passing parent check, a duplicate `changeId`
succeeds silently, overwrites the stored record at that key, marks the
key as a tip again, and adds no new key (the mapping does not grow). -/
theorem addChangeEvent_duplicate_id (L : ChangeLing) (ce : ChangeEvent)
    (hdup : (dget L.store ce.changeId).isSome)
    (hpar : (dget L.store ce.baseId).isSome ∨ ce.baseId = NULL_CHANGE_ID) :
    ∃ L', L.addChangeEvent ce = .ok L'
      ∧ dget L'.store ce.changeId = some ce
      ∧ ce.changeId ∈ L'.tips
      ∧ dkeys L'.store = dkeys L.store := by
  unfold ChangeLing.addChangeEvent
  rw [if_neg (not_not_intro hpar)]
  refine ⟨_, rfl, ?_, ?_, ?_⟩
  · unfold dinsert
    rw [if_pos hdup]
    exact dget_dreplace_self L.store ce.changeId ce hdup
  · exact mem_ladd_self _ ce.changeId
  · unfold dinsert
    rw [if_pos hdup]
    exact dkeys_dreplace L.store ce.changeId ce

/-- Witness for `addChangeEvent_duplicate_id`: a store holding a record
with id `"1"` accepts a second record with id `"1"`. -/
theorem addChangeEvent_duplicate_id_witness :
    (dget (ChangeLing.mk
        [("1".data, ⟨"0_0_0".data, "1".data, "u".data, 0, "END:".data, "text:\"a\"".data, true⟩)]
        ["1".data] [] 0).store "1".data).isSome ∧
    ∃ L', ChangeLing.addChangeEvent
        (ChangeLing.mk
          [("1".data, ⟨"0_0_0".data, "1".data, "u".data, 0, "END:".data, "text:\"a\"".data, true⟩)]
          ["1".data] [] 0)
        ⟨"0_0_0".data, "1".data, "v".data, 0, "END:".data, "text:\"b\"".data, false⟩ = .ok L'
      ∧ dget L'.store "1".data
          = some ⟨"0_0_0".data, "1".data, "v".data, 0, "END:".data, "text:\"b\"".data, false⟩
      ∧ "1".data ∈ L'.tips
      ∧ dkeys L'.store = dkeys (ChangeLing.mk
          [("1".data, ⟨"0_0_0".data, "1".data, "u".data, 0, "END:".data, "text:\"a\"".data, true⟩)]
          ["1".data] [] 0).store :=
  ⟨by decide, addChangeEvent_duplicate_id _ _ (by decide) (Or.inr rfl)⟩

/-! ## Replay failure propagation (C3) -/

/-- A first record whose `chars:0:5` target cannot resolve over the
empty document (`5 > 0`). -/
def c3r1 : ChangeEvent :=
  ⟨"0_0_0".data, "1".data, "sjd".data, 0, "chars:0:5".data, "text:\"x\"".data, true⟩

/-- A second record based on the first, a plain append. -/
def c3r2 : ChangeEvent :=
  ⟨"1".data, "2".data, "sjd".data, 0, "END:".data, "text:\"y\"".data, true⟩

/-- The store holding the two records above. -/
def c3Store : ChangeLing :=
  match insertAll emptyLing [c3r1, c3r2] with
  | .ok L => L
  | .error _ => emptyLing

/-- C3 (evaluation at the failing input): both insertions are accepted;
the first replay step fails and returns the `None` sentinel; but
`getDocAsOfChangeId` of the second record does not return the sentinel —
`path2Document` keeps folding over `None`, and the next step's
`len(None)` raises an uncaught `TypeError`. -/
theorem replay_failure_raises_typeerror :
    insertAll emptyLing [c3r1, c3r2] = .ok c3Store
    ∧ ChangeEvent.apply trivOracle c3r1 (some "".data) = .ok none
    ∧ ChangeLing.getDocAsOfChangeId trivOracle c3Store "2".data 2 = .error .typeError :=
  ⟨rfl, rfl, rfl⟩

/-! ## Late metadata acceptance (C8) -/

/-- A well-formed data record line (insertion at the start of the empty
document). -/
def c8rec : List Char := "0_0_0, 1, sjd, 123, chars:0:0, text:\"x\"".data

/-- A `#META` line placed *after* the data record. -/
def c8meta : List Char := "#META ab=\"y\"".data

/-- The store produced by loading the two lines. -/
def c8Ling : ChangeLing :=
  match ChangeLing.loadFromPlain trivOracle emptyLing [c8rec, c8meta] with
  | .ok L => L
  | .error _ => emptyLing

/-- C8 (evaluation at the failing input): loading a change record and
*then* a `#META` line succeeds, and the late metadata is stored — the
`assert self.nChanges == 0` guard can never fire because `nChanges` is
never incremented.  The third conjunct shows a change record really was
added before the metadata line was processed. -/
theorem late_meta_accepted :
    ChangeLing.loadFromPlain trivOracle emptyLing [c8rec, c8meta] = .ok c8Ling
    ∧ dget c8Ling.meta "ab".data = some ["y".data]
    ∧ dkeys c8Ling.store = ["1".data] :=
  ⟨rfl, rfl, rfl⟩

/-! ## Tip-set bookkeeping lemmas -/

/-- Base ids of all stored records, in store order. -/
def bids (S : List (List Char × ChangeEvent)) : List (List Char) :=
  S.map (fun kv => kv.2.baseId)

/-- A lookup succeeds exactly on the stored keys. -/
theorem dget_isSome_iff {α : Type} (d : List (List Char × α)) (k : List Char) :
    (dget d k).isSome = true ↔ k ∈ dkeys d := by
  induction d with
  | nil => simp [dget, dkeys]
  | cons kv rest ih =>
      by_cases hk : kv.1 = k
      · have hg : dget (kv :: rest) k = some kv.2 := by
          rw [show dget (kv :: rest) k = if kv.1 = k then some kv.2 else dget rest k from rfl,
            if_pos hk]
        rw [hg]
        exact iff_of_true rfl (List.mem_cons.mpr (Or.inl hk.symm))
      · simp only [dget, dkeys, List.map_cons, List.mem_cons, if_neg hk]
        rw [show dkeys rest = rest.map (fun kv => kv.1) from rfl] at ih
        rw [ih]
        constructor
        · exact Or.inr
        · rintro (rfl | h)
          · exact absurd rfl hk
          · exact h

/-- A fresh key turns `dinsert` into a plain append. -/
theorem dinsert_fresh {α : Type} (d : List (List Char × α)) (k : List Char) (v : α)
    (h : k ∉ dkeys d) : dinsert d k v = d ++ [(k, v)] := by
  unfold dinsert
  rw [if_neg]
  intro hs
  exact h ((dget_isSome_iff d k).mp hs)

/-- Deleting from the tip set only removes elements. -/
theorem ldel_subset (t : List (List Char)) (b k : List Char) (h : k ∈ ldel t b) :
    k ∈ t := by
  induction t with
  | nil => simp [ldel] at h
  | cons x rest ih =>
      by_cases hx : x = b
      · rw [ldel, if_pos hx] at h
        exact List.mem_cons_of_mem x h
      · rw [ldel, if_neg hx] at h
        rcases List.mem_cons.mp h with rfl | h
        · exact List.mem_cons_self _ _
        · exact List.mem_cons_of_mem x (ih h)

/-- Membership after a tip deletion, on duplicate-free tip sets. -/
theorem mem_ldel (t : List (List Char)) (b k : List Char) (hnd : t.Nodup) :
    k ∈ ldel t b ↔ k ∈ t ∧ k ≠ b := by
  induction t with
  | nil => simp [ldel]
  | cons x rest ih =>
      obtain ⟨hx, hrest⟩ := List.nodup_cons.mp hnd
      by_cases hxb : x = b
      · subst hxb
        rw [ldel, if_pos rfl]
        constructor
        · intro hk
          exact ⟨List.mem_cons_of_mem x hk, fun he => hx (he ▸ hk)⟩
        · rintro ⟨hk, hne⟩
          rcases List.mem_cons.mp hk with rfl | hk
          · exact absurd rfl hne
          · exact hk
      · rw [ldel, if_neg hxb]
        constructor
        · intro hk
          rcases List.mem_cons.mp hk with rfl | hk
          · exact ⟨List.mem_cons_self _ _, hxb⟩
          · obtain ⟨h1, h2⟩ := (ih hrest).mp hk
            exact ⟨List.mem_cons_of_mem x h1, h2⟩
        · rintro ⟨hk, hne⟩
          rcases List.mem_cons.mp hk with rfl | hk
          · exact List.mem_cons_self _ _
          · exact List.mem_cons_of_mem x ((ih hrest).mpr ⟨hk, hne⟩)

/-- Tip deletion keeps the tip set duplicate-free. -/
theorem ldel_nodup (t : List (List Char)) (b : List Char) (hnd : t.Nodup) :
    (ldel t b).Nodup := by
  induction t with
  | nil => simp [ldel]
  | cons x rest ih =>
      obtain ⟨hx, hrest⟩ := List.nodup_cons.mp hnd
      by_cases hxb : x = b
      · rw [ldel, if_pos hxb]; exact hrest
      · rw [ldel, if_neg hxb]
        exact List.nodup_cons.mpr ⟨fun h => hx (ldel_subset rest b x h), ih hrest⟩

/-- Membership after a tip addition. -/
theorem mem_ladd (t : List (List Char)) (c k : List Char) :
    k ∈ ladd t c ↔ k = c ∨ k ∈ t := by
  unfold ladd
  split
  · rename_i hc
    constructor
    · exact Or.inr
    · rintro (rfl | h)
      · exact hc
      · exact h
  · simp [List.mem_append, or_comm]

/-- Tip addition keeps the tip set duplicate-free. -/
theorem ladd_nodup (t : List (List Char)) (c : List Char) (hnd : t.Nodup) :
    (ladd t c).Nodup := by
  unfold ladd
  split
  · exact hnd
  · rename_i hc
    exact List.Nodup.append hnd (List.nodup_singleton c)
      (by simpa [List.disjoint_singleton] using hc)

/-! ## Store invariant under valid insertion sequences -/

/-- Each stored record's base id points at the null change id or at a
key appearing strictly earlier in the store (checked with `seen`
accumulating the keys walked so far). -/
def parentsPriorB (seen : List (List Char)) : List (List Char × ChangeEvent) → Bool
  | [] => true
  | kv :: rest =>
      decide (kv.2.baseId ∈ seen ∨ kv.2.baseId = NULL_CHANGE_ID)
        && parentsPriorB (seen ++ [kv.1]) rest

/-- The insertion invariant exactly as claim C4 states it: every
record's id is fresh (not among the ids seen so far) and every record's
parent is the null change id or already seen. -/
def freshSeqB (seen : List (List Char)) : List ChangeEvent → Bool
  | [] => true
  | ce :: rest =>
      decide (ce.changeId ∉ seen)
        && decide (ce.baseId ∈ seen ∨ ce.baseId = NULL_CHANGE_ID)
        && freshSeqB (seen ++ [ce.changeId]) rest

/-- The amended insertion invariant: additionally no record may use the
reserved null change id `0_0_0` as its own id. -/
def freshSeqOkB (seen : List (List Char)) : List ChangeEvent → Bool
  | [] => true
  | ce :: rest =>
      decide (ce.changeId ∉ seen)
        && decide (¬ ce.changeId = NULL_CHANGE_ID)
        && decide (ce.baseId ∈ seen ∨ ce.baseId = NULL_CHANGE_ID)
        && freshSeqOkB (seen ++ [ce.changeId]) rest

/-- Structural invariant of a `ChangeLing` built by valid insertions:
duplicate-free keys and tips, the incremental tip set characterized as
keys-minus-parents, the null id never a key, parents resolved or null,
records stored under their own change id, and parents strictly earlier
in store order. -/
structure StoreInv (L : ChangeLing) : Prop where
  keysNodup : (dkeys L.store).Nodup
  tipsNodup : L.tips.Nodup
  tips_iff : ∀ k, k ∈ L.tips ↔ (k ∈ dkeys L.store ∧ k ∉ bids L.store)
  null_not_key : NULL_CHANGE_ID ∉ dkeys L.store
  parentClosed : ∀ b ∈ bids L.store, b ∈ dkeys L.store ∨ b = NULL_CHANGE_ID
  keyed : ∀ kv ∈ L.store, kv.2.changeId = kv.1
  parentsPrior : parentsPriorB [] L.store = true

/-- The empty store satisfies the invariant. -/
theorem emptyLing_inv : StoreInv emptyLing := by
  refine ⟨?_, ?_, ?_, ?_, ?_, ?_, ?_⟩ <;> simp [emptyLing, dkeys, bids, parentsPriorB]

/-- Appending one entry to the store extends `parentsPriorB` by the
corresponding parent check against the earlier keys. -/
theorem parentsPriorB_append (S : List (List Char × ChangeEvent))
    (x : List Char × ChangeEvent) :
    ∀ seen, parentsPriorB seen (S ++ [x])
      = (parentsPriorB seen S
          && decide (x.2.baseId ∈ seen ++ dkeys S ∨ x.2.baseId = NULL_CHANGE_ID)) := by
  induction S with
  | nil => intro seen; simp [parentsPriorB, dkeys]
  | cons kv rest ih =>
      intro seen
      simp only [List.cons_append, parentsPriorB, List.append_eq, ih (seen ++ [kv.1]), dkeys,
        List.map_cons, Bool.and_assoc, List.append_assoc, List.singleton_append,
        List.nil_append]

/-- One valid insertion: the new record is appended under its own id,
the tips are updated incrementally, and every invariant clause is
preserved. -/
theorem addChangeEvent_step (L : ChangeLing) (ce : ChangeEvent)
    (inv : StoreInv L)
    (hfr : ce.changeId ∉ dkeys L.store)
    (hnn : ce.changeId ≠ NULL_CHANGE_ID)
    (hpar : ce.baseId ∈ dkeys L.store ∨ ce.baseId = NULL_CHANGE_ID) :
    L.addChangeEvent ce = .ok
        { L with store := L.store ++ [(ce.changeId, ce)]
                 tips := ladd (ldel L.tips ce.baseId) ce.changeId }
      ∧ StoreInv
        { L with store := L.store ++ [(ce.changeId, ce)]
                 tips := ladd (ldel L.tips ce.baseId) ce.changeId } := by
  have hkeys : dkeys (L.store ++ [(ce.changeId, ce)]) = dkeys L.store ++ [ce.changeId] := by
    simp [dkeys]
  have hbids : bids (L.store ++ [(ce.changeId, ce)]) = bids L.store ++ [ce.baseId] := by
    simp [bids]
  have hbase_not_fresh : ce.changeId ∉ bids L.store := by
    intro hc
    rcases inv.parentClosed ce.changeId hc with h | h
    · exact hfr h
    · exact hnn h
  have hcb : ce.changeId ≠ ce.baseId := by
    rcases hpar with h | h
    · intro he; exact hfr (he ▸ h)
    · intro he; exact hnn (he ▸ h)
  constructor
  · unfold ChangeLing.addChangeEvent
    rw [if_neg (not_not_intro (by
      rcases hpar with h | h
      · exact Or.inl ((dget_isSome_iff L.store ce.baseId).mpr h)
      · exact Or.inr h))]
    rw [dinsert_fresh L.store ce.changeId ce hfr]
  · refine ⟨?_, ?_, ?_, ?_, ?_, ?_, ?_⟩
    · show (dkeys (L.store ++ [(ce.changeId, ce)])).Nodup
      rw [hkeys]
      exact List.Nodup.append inv.keysNodup (List.nodup_singleton _)
        (by simpa [List.disjoint_singleton] using hfr)
    · show (ladd (ldel L.tips ce.baseId) ce.changeId).Nodup
      exact ladd_nodup _ _ (ldel_nodup _ _ inv.tipsNodup)
    · intro k
      show k ∈ ladd (ldel L.tips ce.baseId) ce.changeId
        ↔ (k ∈ dkeys (L.store ++ [(ce.changeId, ce)])
            ∧ k ∉ bids (L.store ++ [(ce.changeId, ce)]))
      rw [mem_ladd, mem_ldel L.tips ce.baseId k inv.tipsNodup, inv.tips_iff k, hkeys, hbids]
      simp only [List.mem_append, List.mem_singleton]
      constructor
      · rintro (rfl | ⟨⟨hk1, hk2⟩, hkb⟩)
        · exact ⟨Or.inr rfl, by
            rintro (hc | hc)
            · exact hbase_not_fresh hc
            · exact hcb hc⟩
        · exact ⟨Or.inl hk1, by
            rintro (hc | hc)
            · exact hk2 hc
            · exact hkb hc⟩
      · rintro ⟨hk1 | hk1, hk2⟩
        · exact Or.inr ⟨⟨hk1, fun hc => hk2 (Or.inl hc)⟩, fun hc => hk2 (Or.inr hc)⟩
        · exact Or.inl hk1
    · show NULL_CHANGE_ID ∉ dkeys (L.store ++ [(ce.changeId, ce)])
      rw [hkeys]
      simp only [List.mem_append, List.mem_singleton]
      rintro (hc | hc)
      · exact inv.null_not_key hc
      · exact hnn hc.symm
    · show ∀ b ∈ bids (L.store ++ [(ce.changeId, ce)]),
        b ∈ dkeys (L.store ++ [(ce.changeId, ce)]) ∨ b = NULL_CHANGE_ID
      rw [hkeys, hbids]
      intro b hb
      simp only [List.mem_append, List.mem_singleton] at hb ⊢
      rcases hb with hb | hb
      · rcases inv.parentClosed b hb with h | h
        · exact Or.inl (Or.inl h)
        · exact Or.inr h
      · subst hb
        rcases hpar with h | h
        · exact Or.inl (Or.inl h)
        · exact Or.inr h
    · show ∀ kv ∈ L.store ++ [(ce.changeId, ce)], kv.2.changeId = kv.1
      intro kv hkv
      rcases List.mem_append.mp hkv with h | h
      · exact inv.keyed kv h
      · rw [List.mem_singleton.mp h]
    · show parentsPriorB [] (L.store ++ [(ce.changeId, ce)]) = true
      rw [parentsPriorB_append L.store (ce.changeId, ce) []]
      simp only [inv.parentsPrior, Bool.true_and, List.nil_append, decide_eq_true_eq]
      exact hpar

/-- Folding `addChangeEvent` over a sequence satisfying the amended
insertion invariant succeeds and preserves the store invariant. -/
theorem insertAll_inv (rs : List ChangeEvent) :
    ∀ L, StoreInv L → freshSeqOkB (dkeys L.store) rs = true →
      ∃ L', insertAll L rs = .ok L' ∧ StoreInv L' := by
  induction rs with
  | nil => exact fun L inv _ => ⟨L, rfl, inv⟩
  | cons ce rest ih =>
      intro L inv hseq
      simp only [freshSeqOkB, Bool.and_eq_true, decide_eq_true_eq] at hseq
      obtain ⟨⟨⟨h1, h2⟩, h3⟩, h4⟩ := hseq
      obtain ⟨heq, inv'⟩ := addChangeEvent_step L ce inv h1 h2 h3
      have h4' : freshSeqOkB
          (dkeys (L.store ++ [(ce.changeId, ce)])) rest = true := by
        rw [show dkeys (L.store ++ [(ce.changeId, ce)])
              = dkeys L.store ++ [ce.changeId] by simp [dkeys]]
        exact h4
      obtain ⟨L', hL', invL'⟩ := ih _ inv' h4'
      refine ⟨L', ?_, invL'⟩
      rw [show insertAll L (ce :: rest)
            = (match L.addChangeEvent ce with
               | .error e => .error e
               | .ok L2 => insertAll L2 rest) from rfl, heq]
      exact hL'

/-! ## Recomputed tips agree with incremental tips (C4) -/

/-- Deleting an entry only removes keys. -/
theorem dkeys_ddel_subset {α : Type} (d : List (List Char × α)) (b k : List Char)
    (h : k ∈ dkeys (ddel d b)) : k ∈ dkeys d := by
  induction d with
  | nil => simp [ddel, dkeys] at h
  | cons kv rest ih =>
      by_cases hb : kv.1 = b
      · rw [ddel, if_pos hb] at h
        exact List.mem_cons_of_mem kv.1 h
      · rw [ddel, if_neg hb] at h
        rcases List.mem_cons.mp h with rfl | h
        · exact List.mem_cons_self _ _
        · exact List.mem_cons_of_mem kv.1 (ih h)

/-- Key membership after deleting key `b`, on duplicate-free keys. -/
theorem mem_dkeys_ddel {α : Type} (d : List (List Char × α)) (b k : List Char)
    (hnd : (dkeys d).Nodup) : k ∈ dkeys (ddel d b) ↔ k ∈ dkeys d ∧ k ≠ b := by
  induction d with
  | nil => simp [ddel, dkeys]
  | cons kv rest ih =>
      obtain ⟨hx, hrest⟩ := List.nodup_cons.mp hnd
      by_cases hb : kv.1 = b
      · subst hb
        rw [ddel, if_pos rfl]
        constructor
        · intro hk
          exact ⟨List.mem_cons_of_mem kv.1 hk, fun he => hx (by rw [he] at hk; exact hk)⟩
        · rintro ⟨hk, hne⟩
          rcases List.mem_cons.mp hk with rfl | hk
          · exact absurd rfl hne
          · exact hk
      · rw [ddel, if_neg hb]
        show k ∈ kv.1 :: dkeys (ddel rest b) ↔ _
        rw [List.mem_cons, ih hrest]
        constructor
        · rintro (rfl | ⟨h1, h2⟩)
          · exact ⟨List.mem_cons_self _ _, fun he => hb he⟩
          · exact ⟨List.mem_cons_of_mem kv.1 h1, h2⟩
        · rintro ⟨hk, hne⟩
          rcases List.mem_cons.mp hk with rfl | hk
          · exact Or.inl rfl
          · exact Or.inr ⟨hk, hne⟩

/-- Entry deletion keeps the keys duplicate-free. -/
theorem ddel_keys_nodup {α : Type} (d : List (List Char × α)) (b : List Char)
    (hnd : (dkeys d).Nodup) : (dkeys (ddel d b)).Nodup := by
  induction d with
  | nil => simp [ddel, dkeys]
  | cons kv rest ih =>
      obtain ⟨hx, hrest⟩ := List.nodup_cons.mp hnd
      by_cases hb : kv.1 = b
      · rw [ddel, if_pos hb]
        exact hrest
      · rw [ddel, if_neg hb]
        show (kv.1 :: dkeys (ddel rest b)).Nodup
        exact List.nodup_cons.mpr
          ⟨fun h => hx (dkeys_ddel_subset rest b kv.1 h), ih hrest⟩

/-- One step of the `findAllTipVersions` deletion loop. -/
theorem mem_dkeys_delStep {α : Type} (acc : List (List Char × α)) (b k : List Char)
    (hnd : (dkeys acc).Nodup) :
    k ∈ dkeys (if (dget acc b).isSome then ddel acc b else acc)
      ↔ k ∈ dkeys acc ∧ k ≠ b := by
  split
  · rename_i hs
    exact mem_dkeys_ddel acc b k hnd
  · rename_i hs
    have hb : b ∉ dkeys acc := fun h => hs ((dget_isSome_iff acc b).mpr h)
    constructor
    · intro h
      exact ⟨h, fun he => hb (he ▸ h)⟩
    · exact fun h => h.1

/-- The deletion loop keeps the keys duplicate-free. -/
theorem delStep_keys_nodup {α : Type} (acc : List (List Char × α)) (b : List Char)
    (hnd : (dkeys acc).Nodup) :
    (dkeys (if (dget acc b).isSome then ddel acc b else acc)).Nodup := by
  split
  · exact ddel_keys_nodup acc b hnd
  · exact hnd

/-- The whole deletion loop removes exactly the listed keys. -/
theorem mem_dkeys_foldl_del {α : Type} (bs : List (List Char)) :
    ∀ (acc : List (List Char × α)) (k : List Char), (dkeys acc).Nodup →
      (k ∈ dkeys (bs.foldl
          (fun acc b => if (dget acc b).isSome then ddel acc b else acc) acc)
        ↔ k ∈ dkeys acc ∧ k ∉ bs) := by
  induction bs with
  | nil => intro acc k hnd; simp
  | cons b rest ih =>
      intro acc k hnd
      rw [List.foldl_cons,
        ih (if (dget acc b).isSome then ddel acc b else acc) k (delStep_keys_nodup acc b hnd),
        mem_dkeys_delStep acc b k hnd]
      simp only [List.mem_cons]
      constructor
      · rintro ⟨⟨h1, h2⟩, h3⟩
        refine ⟨h1, ?_⟩
        rintro (rfl | hc)
        · exact h2 rfl
        · exact h3 hc
      · rintro ⟨h1, h2⟩
        exact ⟨⟨h1, fun he => h2 (Or.inl he)⟩, fun hc => h2 (Or.inr hc)⟩

/-- The key set of the recomputed `findAllTipVersions` is exactly
"all stored keys minus all stored base ids". -/
theorem mem_dkeys_findAllTipVersions (L : ChangeLing) (hnd : (dkeys L.store).Nodup)
    (k : List Char) :
    k ∈ dkeys L.findAllTipVersions ↔ (k ∈ dkeys L.store ∧ k ∉ bids L.store) := by
  unfold ChangeLing.findAllTipVersions
  have hkeys : dkeys (L.store.map (fun kv => (kv.1, kv.2.baseId))) = dkeys L.store := by
    simp [dkeys, List.map_map]
  have hbids : (L.store.map (fun kv => (kv.1, kv.2.baseId))).map (fun kv => kv.2)
      = bids L.store := by
    simp [bids, List.map_map]
  rw [hbids, mem_dkeys_foldl_del (bids L.store)
    (L.store.map (fun kv => (kv.1, kv.2.baseId))) k
    (by rw [hkeys]; exact hnd), hkeys]

/-- C4 (amended): after any insertion sequence in which every record's
id is fresh *and differs from the root sentinel `0_0_0`* and every
record's parent is the root sentinel or already present, the
incrementally maintained tip set equals (as a set of identifiers) the
tip set recomputed from scratch by `findAllTipVersions`.  (The claim as
stated, without the root-sentinel exclusion, is refuted by
`tips_recompute_disagree`.) -/
theorem tips_recompute_agree (rs : List ChangeEvent)
    (h : freshSeqOkB [] rs = true) :
    ∃ L, insertAll emptyLing rs = .ok L
      ∧ ∀ k, (k ∈ L.tips ↔ k ∈ dkeys L.findAllTipVersions) := by
  obtain ⟨L, heq, inv⟩ := insertAll_inv rs emptyLing emptyLing_inv h
  exact ⟨L, heq, fun k => by
    rw [inv.tips_iff k, mem_dkeys_findAllTipVersions L inv.keysNodup k]⟩

/-- Witness for `tips_recompute_agree`: a two-record chain rooted at
the sentinel. -/
theorem tips_recompute_agree_witness :
    freshSeqOkB []
        [⟨"0_0_0".data, "1".data, "u".data, 0, "END:".data, "text:\"a\"".data, true⟩,
         ⟨"1".data, "2".data, "u".data, 0, "END:".data, "text:\"b\"".data, true⟩] = true
    ∧ ∃ L, insertAll emptyLing
        [⟨"0_0_0".data, "1".data, "u".data, 0, "END:".data, "text:\"a\"".data, true⟩,
         ⟨"1".data, "2".data, "u".data, 0, "END:".data, "text:\"b\"".data, true⟩] = .ok L
      ∧ ∀ k, (k ∈ L.tips ↔ k ∈ dkeys L.findAllTipVersions) :=
  ⟨by decide, tips_recompute_agree _ (by decide)⟩

/-- First counterexample record: an ordinary root-based record. -/
def c4r1 : ChangeEvent :=
  ⟨"0_0_0".data, "1".data, "u".data, 0, "END:".data, "text:\"a\"".data, true⟩

/-- Second counterexample record: its id is the root sentinel `0_0_0`
itself — fresh (never stored before) and with a stored parent, so the
claim's insertion invariant holds. -/
def c4r2 : ChangeEvent :=
  ⟨"1".data, "0_0_0".data, "u".data, 0, "END:".data, "text:\"b\"".data, true⟩

/-- The store after inserting the two counterexample records. -/
def c4Ling : ChangeLing :=
  match insertAll emptyLing [c4r1, c4r2] with
  | .ok L => L
  | .error _ => emptyLing

/-- C4 as stated is false: the sequence `[c4r1, c4r2]` satisfies the
claim's insertion invariant (fresh ids, parents present or root), both
insertions succeed, yet `0_0_0` is an incremental tip while the
recomputed tip set is empty — `findAllTipVersions` deletes the key
`0_0_0` because record `1` names it as parent. -/
theorem tips_recompute_disagree :
    freshSeqB [] [c4r1, c4r2] = true
    ∧ insertAll emptyLing [c4r1, c4r2] = .ok c4Ling
    ∧ NULL_CHANGE_ID ∈ c4Ling.tips
    ∧ NULL_CHANGE_ID ∉ dkeys c4Ling.findAllTipVersions :=
  ⟨by decide, rfl, by decide, by decide⟩

/-! ## Ancestry paths (C7) -/

/-- Consecutive records of a path are linked: each later record's
`baseId` names the preceding record's `changeId`. -/
def linked : List ChangeEvent → Prop
  | [] => True
  | [_] => True
  | a :: b :: rest => b.baseId = a.changeId ∧ linked (b :: rest)

/-- Extending a linked path by one record whose base is the path's last
change id. -/
theorem linked_append_one (x : ChangeEvent) :
    ∀ (c : List ChangeEvent) (p : ChangeEvent), linked c → c.getLast? = some p →
      x.baseId = p.changeId → linked (c ++ [x]) := by
  intro c
  induction c with
  | nil => intro p _ hlast _; simp at hlast
  | cons a rest ih =>
      intro p hlk hlast hx
      cases rest with
      | nil =>
          rw [List.getLast?_singleton] at hlast
          injection hlast with hap
          exact ⟨by rw [hx, hap], trivial⟩
      | cons b rest2 =>
          obtain ⟨h1, h2⟩ := hlk
          rw [List.getLast?_cons_cons] at hlast
          exact ⟨h1, ih p h2 hlast hx⟩

/-- In a store with duplicate-free keys, lookup answers membership. -/
theorem dget_of_mem_nodup {α : Type} (d : List (List Char × α)) (k : List Char) (v : α)
    (hnd : (dkeys d).Nodup) (h : (k, v) ∈ d) : dget d k = some v := by
  induction d with
  | nil => simp at h
  | cons kv rest ih =>
      obtain ⟨hx, hrest⟩ := List.nodup_cons.mp hnd
      rcases List.mem_cons.mp h with rfl | h
      · rw [show dget ((k, v) :: rest) k = if k = k then some v else dget rest k from rfl,
          if_pos rfl]
      · have hk : ¬ kv.1 = k := by
          intro he
          have hmem : k ∈ dkeys rest := List.mem_map_of_mem (fun kv => kv.1) h
          rw [← he] at hmem
          exact hx hmem
        rw [show dget (kv :: rest) k = if kv.1 = k then some kv.2 else dget rest k from rfl,
          if_neg hk]
        exact ih hrest h

/-- A successful lookup comes from a stored entry. -/
theorem mem_of_dget {α : Type} (d : List (List Char × α)) (k : List Char) (v : α)
    (h : dget d k = some v) : (k, v) ∈ d := by
  induction d with
  | nil => simp [dget] at h
  | cons kv rest ih =>
      by_cases hk : kv.1 = k
      · rw [show dget (kv :: rest) k = if kv.1 = k then some kv.2 else dget rest k from rfl,
          if_pos hk] at h
        injection h with hv
        exact List.mem_cons.mpr (Or.inl (by rw [← hk, ← hv]))
      · rw [show dget (kv :: rest) k = if kv.1 = k then some kv.2 else dget rest k from rfl,
          if_neg hk] at h
        exact List.mem_cons_of_mem kv (ih h)

/-- The head of a non-empty list survives an append. -/
theorem head?_append_left {α : Type} (l1 l2 : List α) (h : l1 ≠ []) :
    (l1 ++ l2).head? = l1.head? := by
  cases l1 with
  | nil => exact absurd rfl h
  | cons a t => rfl

/-- Splitting the parents-prior check at the last entry. -/
theorem parentsPriorB_decomp (S : List (List Char × ChangeEvent))
    (x : List Char × ChangeEvent) (h : parentsPriorB [] (S ++ [x]) = true) :
    parentsPriorB [] S = true
      ∧ (x.2.baseId ∈ dkeys S ∨ x.2.baseId = NULL_CHANGE_ID) := by
  rw [parentsPriorB_append S x []] at h
  simp only [Bool.and_eq_true, decide_eq_true_eq, List.nil_append] at h
  exact h

/-- Core of C7: within any parents-prior prefix of a well-keyed,
duplicate-free store, the backward walk from any member terminates with
fuel bounded by the prefix length and produces the ancestry chain:
non-empty, rooted at the null change id, ending at the start record,
consecutively linked, and consisting of stored records. -/
theorem pathAux_prefix_ok (L : ChangeLing)
    (hnd : (dkeys L.store).Nodup)
    (hkeyed : ∀ kv ∈ L.store, kv.2.changeId = kv.1) :
    ∀ T : List (List Char × ChangeEvent), T <+: L.store →
      parentsPriorB [] T = true →
      ∀ kv ∈ T, ∀ fuel, T.length ≤ fuel → ∀ acc,
        ∃ c, getPathAux L kv.2 acc fuel = .ok (c ++ acc)
          ∧ c ≠ []
          ∧ (c.head?.map ChangeEvent.baseId) = some NULL_CHANGE_ID
          ∧ c.getLast? = some kv.2
          ∧ linked c
          ∧ (∀ x ∈ c, dget L.store x.changeId = some x) := by
  intro T
  induction T using List.reverseRecOn with
  | nil =>
      intro _ _ kv hkv
      simp at hkv
  | append_singleton T x ih =>
      intro hpre hpp kv hkv fuel hfuel acc
      obtain ⟨hppT, hx⟩ := parentsPriorB_decomp T x hpp
      have hpreT : T <+: L.store := (List.prefix_append T [x]).trans hpre
      rcases List.mem_append.mp hkv with hkvT | hkvx
      · have hlen : T.length ≤ fuel := by
          simp only [List.length_append, List.length_singleton] at hfuel
          omega
        exact ih hpreT hppT kv hkvT fuel hlen acc
      · rw [List.mem_singleton.mp hkvx]
        cases fuel with
        | zero => simp [List.length_append] at hfuel
        | succ f =>
          have hf : T.length ≤ f := by
            simp only [List.length_append, List.length_singleton] at hfuel
            omega
          have hxstore : x ∈ L.store :=
            hpre.subset (List.mem_append_right T (List.mem_singleton_self x))
          have hxget : dget L.store x.2.changeId = some x.2 := by
            rw [hkeyed x hxstore]
            exact dget_of_mem_nodup L.store x.1 x.2 hnd hxstore
          have hunf : getPathAux L x.2 acc (f + 1)
              = if x.2.baseId = NULL_CHANGE_ID then .ok (x.2 :: acc)
                else match dget L.store x.2.baseId with
                  | none => .error .systemExit
                  | some p => getPathAux L p (x.2 :: acc) f := rfl
          by_cases hnull : x.2.baseId = NULL_CHANGE_ID
          · refine ⟨[x.2], ?_, by simp, by simp [hnull], by simp, trivial, ?_⟩
            · rw [hunf, if_pos hnull]
              rfl
            · intro y hy
              rw [List.mem_singleton.mp hy]
              exact hxget
          · rcases hx with hxmem | hxn
            on_goal 2 => exact absurd hxn hnull
            obtain ⟨kvp, hkvpT, hkvp1⟩ := List.mem_map.mp hxmem
            have hpget : dget L.store x.2.baseId = some kvp.2 := by
              rw [← hkvp1]
              exact dget_of_mem_nodup L.store kvp.1 kvp.2 hnd (hpreT.subset hkvpT)
            obtain ⟨c', hc'eq, hc'ne, hc'head, hc'last, hc'link, hc'stored⟩ :=
              ih hpreT hppT kvp hkvpT f hf (x.2 :: acc)
            refine ⟨c' ++ [x.2], ?_, by simp, ?_, by rw [List.getLast?_concat], ?_, ?_⟩
            · rw [hunf, if_neg hnull, hpget]
              show getPathAux L kvp.2 (x.2 :: acc) f = Except.ok (c' ++ [x.2] ++ acc)
              rw [hc'eq, List.append_assoc, List.singleton_append]
            · rw [head?_append_left c' [x.2] hc'ne]
              exact hc'head
            · refine linked_append_one x.2 c' kvp.2 hc'link hc'last ?_
              rw [hkeyed kvp (hpreT.subset hkvpT), hkvp1]
            · intro y hy
              rcases List.mem_append.mp hy with hy | hy
              · exact hc'stored y hy
              · rw [List.mem_singleton.mp hy]
                exact hxget

/-- C7: in a store built by a valid insertion sequence (the parent
invariant), `getPathToChangeId cid` — run with fuel equal to the number
of stored records, a bound at which the Python loop has already
terminated — returns a non-empty path beginning with a record whose
parent is the root sentinel, ending with the record stored under `cid`,
in which every consecutive pair is linked parent-to-child and every
element is exactly the stored record for its id. -/
theorem getPath_ancestry (rs : List ChangeEvent) (L : ChangeLing)
    (cid : List Char) (ce : ChangeEvent)
    (hseq : freshSeqOkB [] rs = true)
    (hins : insertAll emptyLing rs = .ok L)
    (hmem : dget L.store cid = some ce) :
    ∃ p, L.getPathToChangeId cid L.store.length = .ok p
      ∧ p ≠ []
      ∧ (p.head?.map ChangeEvent.baseId) = some NULL_CHANGE_ID
      ∧ p.getLast? = some ce
      ∧ ce.changeId = cid
      ∧ linked p
      ∧ (∀ x ∈ p, dget L.store x.changeId = some x) := by
  obtain ⟨L', heq, inv⟩ := insertAll_inv rs emptyLing emptyLing_inv hseq
  rw [hins] at heq
  injection heq with heq
  subst heq
  have hentry : (cid, ce) ∈ L.store := mem_of_dget L.store cid ce hmem
  have hkey : ce.changeId = cid := inv.keyed (cid, ce) hentry
  obtain ⟨c, hceq, hcne, hchead, hclast, hclink, hcstored⟩ :=
    pathAux_prefix_ok L inv.keysNodup inv.keyed L.store (List.prefix_refl L.store)
      inv.parentsPrior (cid, ce) hentry L.store.length (le_refl _) []
  refine ⟨c, ?_, hcne, hchead, hclast, hkey, hclink, hcstored⟩
  rw [show L.getPathToChangeId cid L.store.length
        = (match dget L.store cid with
           | none => .error (.keyError .missingKey)
           | some ce => getPathAux L ce [] L.store.length) from rfl,
    hmem]
  show getPathAux L (cid, ce).2 [] L.store.length = Except.ok c
  rw [hceq, List.append_nil]

/-- A two-record chain for exercising `getPath_ancestry`. -/
def c7r1 : ChangeEvent :=
  ⟨"0_0_0".data, "1".data, "u".data, 0, "END:".data, "text:\"a\"".data, true⟩

/-- Second record of the chain, based on the first. -/
def c7r2 : ChangeEvent :=
  ⟨"1".data, "2".data, "u".data, 0, "END:".data, "text:\"b\"".data, true⟩

/-- The store holding the two-record chain. -/
def c7Ling : ChangeLing :=
  match insertAll emptyLing [c7r1, c7r2] with
  | .ok L => L
  | .error _ => emptyLing

/-- Witness for `getPath_ancestry`: the ancestry of id `"2"` in the
two-record chain. -/
theorem getPath_ancestry_witness :
    freshSeqOkB [] [c7r1, c7r2] = true
    ∧ insertAll emptyLing [c7r1, c7r2] = .ok c7Ling
    ∧ dget c7Ling.store "2".data = some c7r2
    ∧ ∃ p, c7Ling.getPathToChangeId "2".data c7Ling.store.length = .ok p
        ∧ p ≠ []
        ∧ (p.head?.map ChangeEvent.baseId) = some NULL_CHANGE_ID
        ∧ p.getLast? = some c7r2
        ∧ c7r2.changeId = "2".data
        ∧ linked p
        ∧ (∀ x ∈ p, dget c7Ling.store x.changeId = some x) :=
  ⟨by decide, rfl, rfl,
    getPath_ancestry [c7r1, c7r2] c7Ling "2".data c7r2 (by decide) rfl rfl⟩

end Changeling

